import Mathlib

/-
Shallow embedding of the scan-and-report core of find-git-dirs (src/main.rs).

Paths (Rust PathBuf) are modelled by their display strings, as lists of
characters.  u64 counters are modelled by Nat together with an explicit
saturating increment at 2^64 - 1.  The HashSet of seen paths is a Finset.
-/

namespace FindGitDirs

abbrev Path := List Char

/-- Backslash character (code 92), written via ofNat to keep literals simple. -/
def bsC : Char := Char.ofNat 92

/-- Double-quote character (code 34). -/
def qC : Char := Char.ofNat 34

/-- Newline character (code 10). -/
def nlC : Char := Char.ofNat 10

/-- Tab character (code 9). -/
def tabC : Char := Char.ofNat 9

/-- Carriage-return character (code 13). -/
def crC : Char := Char.ofNat 13

/-- Space character. -/
def spC : Char := ' '

/-- Replace every occurrence of the single character c by the string r.
This is Rust str::replace at a one-character pattern, used twice by
escape_json_path (main.rs:604-609). -/
def replaceChar (c : Char) (r : List Char) : List Char → List Char
  | [] => []
  | x :: xs => (if x = c then r else [x]) ++ replaceChar c r xs

/-- main.rs:604-609: path.display().to_string().replace backslash by double
backslash, then replace double-quote by backslash double-quote. -/
def escape_json_path (p : Path) : List Char :=
  replaceChar qC [bsC, qC] (replaceChar bsC [bsC, bsC] p)

/-- Largest u64 value. -/
def U64MAX : Nat := 2 ^ 64 - 1

/-- Rust u64 saturating_add(1). -/
def satAdd1 (x : Nat) : Nat := min (x + 1) U64MAX

/-- main.rs:53-60: per-root mutable scan state. -/
structure RootState where
  path : Path
  scanned : Nat
  found : Nat
  done : Bool
  current : Option Path
  deriving DecidableEq, Repr

/-- main.rs:62-72: RootState::new. -/
def RootState.new (p : Path) : RootState :=
  { path := p, scanned := 0, found := 0, done := false, current := none }

/-- main.rs:74-79: the scan-event message type sent over the channel. -/
inductive Msg where
  | scanned (root_idx : Nat)
  | progress (root_idx : Nat) (path : Path)
  | found (root_idx : Nat) (path : Path)
  | done (root_idx : Nat)
  deriving DecidableEq, Repr

/-- Root index carried by a message. -/
def Msg.rootIdx : Msg → Nat
  | .scanned i => i
  | .progress i _ => i
  | .found i _ => i
  | .done i => i

/-- main.rs:81-87: aggregator application state.  The start Instant is
render-only wall-clock data and carries no information the claims mention,
so it is omitted. -/
structure App where
  roots : List RootState
  recent : List Path
  all_found : List Path
  seen_found : Finset Path
  deriving DecidableEq

/-- main.rs:89-98: App::new. -/
def App.new (roots : List Path) : App :=
  { roots := roots.map RootState.new
    recent := []
    all_found := []
    seen_found := ∅ }

/-- In-place update of the i-th element of a list.  Rust's indexed assignment
app.roots[root_idx] panics when the index is out of range; the claims that
depend on root updates therefore carry an in-bounds hypothesis, and out of
range this function is a no-op. -/
def updateAt : List α → Nat → (α → α) → List α
  | [], _, _ => []
  | x :: xs, 0, f => f x :: xs
  | x :: xs, n + 1, f => x :: updateAt xs n f

/-- main.rs:112-118: App::push_recent — push, then drain from the front
whatever exceeds capacity 12. -/
def App.push_recent (a : App) (p : Path) : App :=
  let r := a.recent ++ [p]
  { a with recent := if 12 < r.length then r.drop (r.length - 12) else r }

/-- main.rs:168-191: one step of the aggregator's drain loop, the
(State, Event) -> State' transition of spec section 4.3. -/
def App.applyMsg (a : App) (m : Msg) : App :=
  match m with
  | .scanned i =>
      { a with roots := updateAt a.roots i (fun r => { r with scanned := satAdd1 r.scanned }) }
  | .progress i p =>
      { a with roots := updateAt a.roots i (fun r => { r with current := some p }) }
  | .found i p =>
      if p ∈ a.seen_found then a
      else
        { (a.push_recent p) with
          seen_found := insert p a.seen_found
          roots := updateAt a.roots i (fun r => { r with found := satAdd1 r.found })
          all_found := a.all_found ++ [p] }
  | .done i =>
      { a with roots := updateAt a.roots i (fun r => { r with done := true, current := none }) }

/-- Paths the Msg::Found arm forwards to the live output writer
(main.rs:181-183): exactly the newly deduplicated path, nothing otherwise. -/
def forwarded (a : App) (m : Msg) : List Path :=
  match m with
  | .found _ p => if p ∈ a.seen_found then [] else [p]
  | _ => []

/-- Aggregator processing of a whole event sequence. -/
def runMsgs (a : App) (ms : List Msg) : App :=
  ms.foldl App.applyMsg a

/-- Suffix of the last n elements of a list. -/
def lastN (n : Nat) (l : List α) : List α := l.drop (l.length - n)

/-- main.rs:423-424: window = capacity.clamp(1, 12) with
capacity = area height saturating_sub 2. -/
def windowSize (height : Nat) : Nat := min (max (height - 2) 1) 12

/-- main.rs:418-448: the sequence of paths render_recent_list displays,
top to bottom: the recent slice starting at len - window, reversed
(newest first), at most window entries.  Heights below 3 render nothing. -/
def render_recent_list (height : Nat) (recent : List Path) : List Path :=
  if height < 3 then []
  else
    let window := windowSize height
    let start := recent.length - window
    ((recent.drop start).reverse).take window

/-- ASCII lowercase of a character, as Rust eq_ignore_ascii_case folds. -/
def asciiLower (c : Char) : Char :=
  if 'A' ≤ c ∧ c ≤ 'Z' then Char.ofNat (c.toNat + 32) else c

/-- Rust str::eq_ignore_ascii_case on the two character lists. -/
def eqIgnoreAsciiCase : List Char → List Char → Bool
  | [], [] => true
  | x :: xs, y :: ys => asciiLower x = asciiLower y && eqIgnoreAsciiCase xs ys
  | _, _ => false

/-- The literal name .git the scanner matches against. -/
def gitName : List Char := ['.', 'g', 'i', 't']

/-- One result handed to the walker callback (main.rs:479-514): either a
successful directory entry or an error entry.  file_type() may be absent,
file_name().and_then(to_str) may be absent, canonicalization may fail
(canon = none), and the throttle decision for the advisory progress
message is recorded as the oracle field report. -/
structure FsEntry where
  path : Path
  isDir : Option Bool
  fileName : Option (List Char)
  canon : Option Path
  report : Bool
  deriving DecidableEq, Repr

/-- A walker callback invocation: Ok(entry) or Err(_). -/
inductive WalkItem where
  | ok (e : FsEntry)
  | err
  deriving DecidableEq, Repr

/-- main.rs:522-530: is_git_dir — the entry has a directory file type and
its file name converts to str and equals .git ignoring ASCII case. -/
def is_git_dir (e : FsEntry) : Bool :=
  (e.isDir.getD false) && ((e.fileName.map (fun n => eqIgnoreAsciiCase n gitName)).getD false)

/-- main.rs:532-537: canonical_dir — fs::canonicalize on success, and the
original path on failure (the error is swallowed inside the function, so
the io::Result it returns is always Ok). -/
def canonical_dir (e : FsEntry) : Path :=
  match e.canon with
  | some c => c
  | none => e.path

/-- main.rs:479-516: the messages the walker callback sends for one result:
Scanned always; a throttled Progress when the shared timestamp allows it;
and, when is_git_dir holds, one Found carrying canonical_dir of the entry
(the unwrap_or_else fallback at main.rs:506 is dead code since
canonical_dir never returns Err).  Err results send only Scanned. -/
def entryMsgs (root_idx : Nat) : WalkItem → List Msg
  | .ok e =>
      [Msg.scanned root_idx]
        ++ (if e.report then [Msg.progress root_idx e.path] else [])
        ++ (if is_git_dir e then [Msg.found root_idx (canonical_dir e)] else [])
  | .err => [Msg.scanned root_idx]

/-- Concatenation of the per-entry messages followed by the final Done. -/
def scanMsgsAux (root_idx : Nat) : List WalkItem → List Msg
  | [] => [Msg.done root_idx]
  | it :: rest => entryMsgs root_idx it ++ scanMsgsAux root_idx rest

/-- main.rs:460-520: scan_root — the initial Progress at the root itself,
then the walker callback messages for every visited result, then exactly
one Done. -/
def scan_root (root_idx : Nat) (root : Path) (items : List WalkItem) : List Msg :=
  Msg.progress root_idx root :: scanMsgsAux root_idx items

/-- A root together with the walk results its scanner will traverse. -/
structure RootPlan where
  path : Path
  items : List WalkItem
  deriving DecidableEq

/-- main.rs:450-458: spawn_scanners — one scanner per root, each given the
index obtained by enumerating the roots vector. -/
def spawn_scanners (plans : List RootPlan) : List (List Msg) :=
  plans.enum.map (fun pr => scan_root pr.1 pr.2.path pr.2.items)

/-- The Found payloads of a message list, in order. -/
def foundPaths : List Msg → List Path
  | [] => []
  | Msg.found _ p :: rest => p :: foundPaths rest
  | _ :: rest => foundPaths rest

/-- Claim-side reading of C8: the matches a walk should produce, one per
Ok directory entry named .git (case-insensitively), with the canonicalized
path when canonicalization succeeds and the original entry path
otherwise. -/
def claimedMatches : List WalkItem → List Path
  | [] => []
  | .ok e :: rest =>
      (if is_git_dir e then [e.canon.getD e.path] else []) ++ claimedMatches rest
  | .err :: rest => claimedMatches rest

/-- main.rs:590-602 loop body flattened: comma before every item except the
first, then the escaped path in double quotes. -/
def write_json_items : Bool → List Path → List Char
  | _, [] => []
  | isFirst, p :: ps =>
      (if isFirst then [] else [','])
        ++ qC :: escape_json_path p ++ [qC]
        ++ write_json_items false ps

/-- main.rs:590-602: write_json — opening bracket, the items, closing
bracket and a newline. -/
def write_json (ps : List Path) : List Char :=
  '[' :: write_json_items true ps ++ [']', nlC]

/-- main.rs:641-652: bytes one LiveOutput::record writes in JSON mode given
the current first flag: comma unless first, newline, two spaces, the escaped
path in double quotes.  Each record flushes. -/
def live_record_bytes (first : Bool) (p : Path) : List Char :=
  (if first then [] else [','])
    ++ [nlC, spC, spC, qC]
    ++ escape_json_path p ++ [qC]

/-- Bytes of a sequence of record calls, threading the first flag, which
record clears after every write. -/
def live_records_bytes : Bool → List Path → List Char
  | _, [] => []
  | first, p :: ps => live_record_bytes first p ++ live_records_bytes false ps

/-- main.rs:661-670: bytes LiveOutput::finalize writes in JSON mode given
the first flag: a bare closing bracket when nothing was recorded, otherwise
a newline then the closing bracket, then a newline. -/
def live_finalize_bytes (first : Bool) : List Char :=
  if first then [']', nlC] else [nlC, ']', nlC]

/-- Whole JSON-mode live output file: the opening bracket LiveOutput::new
writes (main.rs:630), the record bytes for the given paths, and the
finalize bytes for the first-flag state those records leave behind. -/
def live_output_bytes (ps : List Path) : List Char :=
  '[' :: live_records_bytes true ps ++ live_finalize_bytes ps.isEmpty

/-- JSON whitespace. -/
def isWsC (c : Char) : Bool := c = spC || c = nlC || c = tabC || c = crC

/-- Hexadecimal digit. -/
def isHexC (c : Char) : Bool :=
  ('0' ≤ c && c ≤ '9') || ('a' ≤ c && c ≤ 'f') || ('A' ≤ c && c ≤ 'F')

/-- Control character, which RFC 8259 forbids unescaped inside a string. -/
def isCtl (c : Char) : Bool := c.toNat < 32

/-- The single-character JSON string escapes. -/
def isSimpleEsc (c : Char) : Bool :=
  c = qC || c = bsC || c = '/' || c = 'b' || c = 'f' || c = 'n' || c = 'r' || c = 't'

/-- Parser state for a JSON array of JSON strings (RFC 8259 string syntax:
no unescaped control characters, backslash only in the listed escapes).
inStr and its successors accumulate the raw element text in reverse. -/
inductive JState where
  | start
  | afterOpen
  | inStr (cur : List Char)
  | afterBS (cur : List Char)
  | afterU (k : Nat) (cur : List Char)
  | afterStr
  | afterComma
  | closed
  deriving DecidableEq, Repr

/-- One character of the JSON array-of-strings recognizer; acc collects the
completed element texts in reverse order. -/
def jsonStep (st : JState) (acc : List (List Char)) (c : Char) :
    Option (JState × List (List Char)) :=
  match st with
  | .start =>
      if isWsC c then some (.start, acc)
      else if c = '[' then some (.afterOpen, acc)
      else none
  | .afterOpen =>
      if isWsC c then some (.afterOpen, acc)
      else if c = qC then some (.inStr [], acc)
      else if c = ']' then some (.closed, acc)
      else none
  | .inStr cur =>
      if c = qC then some (.afterStr, cur.reverse :: acc)
      else if c = bsC then some (.afterBS cur, acc)
      else if isCtl c then none
      else some (.inStr (c :: cur), acc)
  | .afterBS cur =>
      if isSimpleEsc c then some (.inStr (c :: bsC :: cur), acc)
      else if c = 'u' then some (.afterU 4 (c :: bsC :: cur), acc)
      else none
  | .afterU k cur =>
      if isHexC c then
        if k ≤ 1 then some (.inStr (c :: cur), acc) else some (.afterU (k - 1) (c :: cur), acc)
      else none
  | .afterStr =>
      if isWsC c then some (.afterStr, acc)
      else if c = ',' then some (.afterComma, acc)
      else if c = ']' then some (.closed, acc)
      else none
  | .afterComma =>
      if isWsC c then some (.afterComma, acc)
      else if c = qC then some (.inStr [], acc)
      else none
  | .closed =>
      if isWsC c then some (.closed, acc)
      else none

/-- Run the recognizer over a character list. -/
def jsonRun (st : JState) (acc : List (List Char)) :
    List Char → Option (JState × List (List Char))
  | [] => some (st, acc)
  | c :: rest =>
      match jsonStep st acc c with
      | some (st2, acc2) => jsonRun st2 acc2 rest
      | none => none

/-- Parse a whole input as a JSON array of strings; on success returns the
raw (still escaped) element texts in order. -/
def parseJsonStrings (l : List Char) : Option (List (List Char)) :=
  match jsonRun .start [] l with
  | some (.closed, acc) => some acc.reverse
  | _ => none

/-- No character of the path is a control character; this is the regime in
which the escaping of main.rs:604-609 suffices for JSON validity. -/
def ControlFree (p : Path) : Prop := ∀ c ∈ p, isCtl c = false

instance (p : Path) : Decidable (ControlFree p) :=
  List.decidableBAll (fun c => isCtl c = false) p

/-- One claim-side escape step: backslash doubles, double-quote gains a
backslash, everything else passes through unchanged. -/
def specEscapeChar (c : Char) : List Char :=
  if c = bsC then [bsC, bsC] else if c = qC then [bsC, qC] else [c]

/-- Claim-side description of escape_json_path: the character-wise map. -/
def specEscape : Path → List Char
  | [] => []
  | c :: cs => specEscapeChar c ++ specEscape cs

/-- One iteration of the main render loop (main.rs:166-217): the messages
try_recv drains this time around, whether every LiveOutput::record call
issued during the drain fails, whether terminal.draw fails, whether the
input poll/read fails, and the key event, if any (some true is one of the
quit keys q, Esc, Ctrl-C). -/
structure IterSpec where
  msgs : List Msg
  recordFails : Bool
  drawFails : Bool
  pollFails : Bool
  key : Option Bool
  deriving DecidableEq

/-- How the render loop was left. -/
inductive ExitKind where
  | quit
  | errRecord
  | errDraw
  | errPoll
  deriving DecidableEq, Repr

/-- main.rs:168-191: the drain while-loop.  When the live writer is active
and its record call fails, the question-mark operator on
writer.record(&path) at main.rs:182 propagates the error out of main after
the message's own state mutations already happened. -/
def drainLoop (live : Bool) (recFail : Bool) : App → List Msg → Except App App
  | a, [] => .ok a
  | a, m :: rest =>
      let a2 := a.applyMsg m
      if live && recFail && !(forwarded a m).isEmpty then .error a2
      else drainLoop live recFail a2 rest

/-- main.rs:166-217: the render loop.  Each iteration drains, draws, polls;
terminal.draw at main.rs:193 and the poll/read at main.rs:201-202 propagate
errors with the question-mark operator; a quit key breaks the loop.  A trace
that ends without a break or an error means the loop is still running
(none). -/
def runLoop (live : Bool) : App → List IterSpec → Option (App × ExitKind)
  | _, [] => none
  | a, it :: rest =>
      match drainLoop live it.recordFails a it.msgs with
      | .error a2 => some (a2, .errRecord)
      | .ok a2 =>
          if it.drawFails then some (a2, .errDraw)
          else if it.pollFails then some (a2, .errPoll)
          else
            match it.key with
            | some true => some (a2, .quit)
            | _ => runLoop live a2 rest

/-- How many times LiveOutput::finalize runs for a given loop exit: the
finalize call sits at main.rs:225-226, after the loop, on the normal-return
path only; every error exit has already left main through a question-mark
propagation before reaching it, so finalize runs zero times there. -/
def finalizeRuns (live : Bool) : ExitKind → Nat
  | .quit => if live then 1 else 0
  | _ => 0

/-- The part of main from the render loop to the output step: the loop
exit, paired with how many finalize calls were executed.  none when the
given trace leaves the loop still running. -/
def mainRun (live : Bool) (roots : List Path) (iters : List IterSpec) :
    Option (Nat × App) :=
  match runLoop live (App.new roots) iters with
  | none => none
  | some (a, ek) => some (finalizeRuns live ek, a)

/-- Aggregator invariant tied together by claims C1, C4 and C5: fixed root
count, duplicate-free match list mirrored by the seen set, and fully
attributed per-root counters. -/
def Inv (n : Nat) (a : App) : Prop :=
  a.roots.length = n ∧
  a.all_found.Nodup ∧
  (∀ p : Path, p ∈ a.seen_found ↔ p ∈ a.all_found) ∧
  a.all_found.length = a.seen_found.card ∧
  (a.roots.map RootState.found).sum = a.all_found.length

theorem length_updateAt (l : List α) (i : Nat) (f : α → α) :
    (updateAt l i f).length = l.length := by
  induction l generalizing i with
  | nil => rfl
  | cons x xs ih =>
    cases i with
    | zero => simp [updateAt]
    | succ n => simp [updateAt, ih]

theorem map_updateAt_of_fix (l : List α) (i : Nat) (f : α → α) (g : α → β)
    (h : ∀ x, g (f x) = g x) : (updateAt l i f).map g = l.map g := by
  induction l generalizing i with
  | nil => rfl
  | cons x xs ih =>
    cases i with
    | zero => simp [updateAt, h]
    | succ n => simp [updateAt, ih]

theorem sum_map_updateAt (l : List α) (i : Nat) (f : α → α) (g : α → Nat)
    (x : α) (hx : l.get? i = some x) :
    ((updateAt l i f).map g).sum + g x = (l.map g).sum + g (f x) := by
  induction l generalizing i with
  | nil => simp at hx
  | cons y ys ih =>
    cases i with
    | zero =>
      obtain rfl : y = x := by simpa using hx
      simp [updateAt]
      omega
    | succ n =>
      have hx2 : ys.get? n = some x := hx
      have := ih n hx2
      simp [updateAt]
      omega

theorem replaceChar_append (c : Char) (r xs ys : List Char) :
    replaceChar c r (xs ++ ys) = replaceChar c r xs ++ replaceChar c r ys := by
  induction xs with
  | nil => rfl
  | cons x xs ih => simp [replaceChar, ih]

theorem escape_json_path_eq (p : Path) : escape_json_path p = specEscape p := by
  have hbq : bsC ≠ qC := by decide
  induction p with
  | nil => rfl
  | cons c cs ih =>
    show replaceChar qC [bsC, qC] (replaceChar bsC [bsC, bsC] (c :: cs)) = _
    have hstep : replaceChar bsC [bsC, bsC] (c :: cs) =
        (if c = bsC then [bsC, bsC] else [c]) ++ replaceChar bsC [bsC, bsC] cs := rfl
    rw [hstep, replaceChar_append]
    have htail : replaceChar qC [bsC, qC] (replaceChar bsC [bsC, bsC] cs) = specEscape cs := ih
    by_cases hb : c = bsC
    · subst hb
      simp [replaceChar, specEscape, specEscapeChar, hbq, htail]
    · by_cases hq : c = qC
      · subst hq
        simp [replaceChar, specEscape, specEscapeChar, hbq, Ne.symm hbq, htail]
      · simp [replaceChar, specEscape, specEscapeChar, hb, hq, htail]

/-- Claim C9: escape_json_path maps each backslash to a doubled backslash
and each double-quote to backslash double-quote, and leaves every other
character — control characters included — unchanged: it equals the
character-wise map specEscape. -/
theorem escape_json_path_charwise (p : Path) : escape_json_path p = specEscape p :=
  escape_json_path_eq p

theorem inv_init (roots : List Path) : Inv roots.length (App.new roots) := by
  refine ⟨by simp [App.new], by simp [App.new], ?_, by simp [App.new], ?_⟩
  · intro p
    simp [App.new]
  · simp only [App.new, List.map_map]
    refine Eq.trans (List.sum_eq_zero ?_) (by simp)
    intro x hx
    simp only [List.mem_map] at hx
    obtain ⟨r, _, hr⟩ := hx
    simpa [RootState.new] using hr.symm

theorem inv_applyMsg {n : Nat} {a : App} {m : Msg} (h : Inv n a)
    (hi : m.rootIdx < n) (hcap : a.all_found.length + 1 ≤ U64MAX) :
    Inv n (a.applyMsg m) ∧ (a.applyMsg m).all_found.length ≤ a.all_found.length + 1 := by
  obtain ⟨hlen, hnd, hiff, hcard, hsum⟩ := h
  cases m with
  | scanned i =>
    refine ⟨⟨?_, hnd, hiff, hcard, ?_⟩, ?_⟩
    · simp [App.applyMsg, length_updateAt, hlen]
    · simpa [App.applyMsg, map_updateAt_of_fix] using hsum
    · simp [App.applyMsg]
  | progress i p =>
    refine ⟨⟨?_, hnd, hiff, hcard, ?_⟩, ?_⟩
    · simp [App.applyMsg, length_updateAt, hlen]
    · simpa [App.applyMsg, map_updateAt_of_fix] using hsum
    · simp [App.applyMsg]
  | done i =>
    refine ⟨⟨?_, hnd, hiff, hcard, ?_⟩, ?_⟩
    · simp [App.applyMsg, length_updateAt, hlen]
    · simpa [App.applyMsg, map_updateAt_of_fix] using hsum
    · simp [App.applyMsg]
  | found i p =>
    by_cases hp : p ∈ a.seen_found
    · simp only [App.applyMsg, if_pos hp]
      exact ⟨⟨hlen, hnd, hiff, hcard, hsum⟩, by omega⟩
    · have hpnot : p ∉ a.all_found := fun hc => hp ((hiff p).mpr hc)
      have hi' : i < n := by simpa [Msg.rootIdx] using hi
      have hi2 : i < a.roots.length := by omega
      obtain ⟨x, hx⟩ : ∃ x, a.roots.get? i = some x := ⟨_, List.get?_eq_get hi2⟩
      have hxmem : x ∈ a.roots := List.get?_mem hx
      have hgmem : x.found ∈ a.roots.map RootState.found :=
        List.mem_map_of_mem RootState.found hxmem
      have hfle : x.found ≤ (a.roots.map RootState.found).sum :=
        List.single_le_sum (fun y _ => Nat.zero_le y) _ hgmem
      have hb1 : x.found + 1 ≤ U64MAX := by omega
      have hnosat : satAdd1 x.found = x.found + 1 := by
        simp only [satAdd1]
        omega
      have hsum2 := sum_map_updateAt a.roots i
        (fun r => { r with found := satAdd1 r.found }) RootState.found x hx
      simp only [hnosat] at hsum2
      have hdisj : a.all_found.Disjoint [p] := by
        intro y hy hy2
        rw [List.mem_singleton] at hy2
        exact hpnot (hy2 ▸ hy)
      refine ⟨⟨?_, ?_, ?_, ?_, ?_⟩, ?_⟩
      · simp [App.applyMsg, App.push_recent, if_neg hp, length_updateAt, hlen]
      · simp only [App.applyMsg, App.push_recent, if_neg hp]
        exact (List.nodup_append).mpr ⟨hnd, List.nodup_singleton p, hdisj⟩
      · intro p'
        simp only [App.applyMsg, App.push_recent, if_neg hp, Finset.mem_insert,
          List.mem_append, List.mem_singleton]
        rw [hiff p']
        tauto
      · simp only [App.applyMsg, App.push_recent, if_neg hp]
        rw [List.length_append, Finset.card_insert_of_not_mem hp]
        simp [hcard]
      · simp only [App.applyMsg, App.push_recent, if_neg hp] at hsum2 ⊢
        rw [List.length_append]
        simp only [List.length_singleton]
        omega
      · simp [App.applyMsg, App.push_recent, if_neg hp]

theorem runMsgs_nil (a : App) : runMsgs a [] = a := rfl

theorem runMsgs_cons (a : App) (m : Msg) (ms : List Msg) :
    runMsgs a (m :: ms) = runMsgs (a.applyMsg m) ms := rfl

theorem inv_runMsgs {n : Nat} (ms : List Msg) :
    ∀ a : App, Inv n a → (∀ m ∈ ms, m.rootIdx < n) →
      a.all_found.length + ms.length ≤ U64MAX → Inv n (runMsgs a ms) := by
  induction ms with
  | nil => intro a h _ _; simpa [runMsgs_nil] using h
  | cons m rest ih =>
    intro a h hidx hcap
    have hm : m.rootIdx < n := hidx m (List.mem_cons_self m rest)
    have hcap1 : a.all_found.length + 1 ≤ U64MAX := by
      have := hcap
      simp only [List.length_cons] at this
      omega
    have h1 := inv_applyMsg h hm hcap1
    rw [runMsgs_cons]
    refine ih (a.applyMsg m) h1.1 (fun m' hm' => hidx m' (List.mem_cons_of_mem m hm')) ?_
    have h2 := h1.2
    simp only [List.length_cons] at hcap
    omega

/-- Claim C1: in every aggregator state reached by processing a sequence of
scan events (with in-range root indices, and fewer events than 2^64, the
Vec-capacity and u64 bound under which no counter saturates), all_found
holds no duplicate paths, its length equals the cardinality of seen_found,
and the per-root found counters sum to exactly that length. -/
theorem aggregator_dedup_invariant (roots : List Path) (ms : List Msg)
    (hidx : ∀ m ∈ ms, m.rootIdx < roots.length)
    (hcap : ms.length < 2 ^ 64) :
    (runMsgs (App.new roots) ms).all_found.Nodup ∧
    (runMsgs (App.new roots) ms).all_found.length =
      (runMsgs (App.new roots) ms).seen_found.card ∧
    ((runMsgs (App.new roots) ms).roots.map RootState.found).sum =
      (runMsgs (App.new roots) ms).all_found.length := by
  have hb : (App.new roots).all_found.length + ms.length ≤ U64MAX := by
    simp only [App.new, List.length_nil, Nat.zero_add, U64MAX]
    omega
  have hlen0 : (App.new roots).roots.length = roots.length := by simp [App.new]
  have h := inv_runMsgs (n := roots.length) ms (App.new roots) (inv_init roots) hidx hb
  exact ⟨h.2.1, h.2.2.2.1, h.2.2.2.2⟩

theorem aggregator_dedup_invariant_witness :
    (runMsgs (App.new [['r']]) [Msg.found 0 ['p'], Msg.found 0 ['p']]).all_found.Nodup ∧
    (runMsgs (App.new [['r']]) [Msg.found 0 ['p'], Msg.found 0 ['p']]).all_found.length =
      (runMsgs (App.new [['r']]) [Msg.found 0 ['p'], Msg.found 0 ['p']]).seen_found.card ∧
    ((runMsgs (App.new [['r']]) [Msg.found 0 ['p'], Msg.found 0 ['p']]).roots.map
        RootState.found).sum =
      (runMsgs (App.new [['r']]) [Msg.found 0 ['p'], Msg.found 0 ['p']]).all_found.length :=
  aggregator_dedup_invariant [['r']] [Msg.found 0 ['p'], Msg.found 0 ['p']]
    (by decide) (by norm_num)

theorem applyMsg_found_of_mem (a : App) (i : Nat) (p : Path)
    (hp : p ∈ a.seen_found) : a.applyMsg (Msg.found i p) = a := by
  simp [App.applyMsg, hp]

theorem forwarded_found_of_mem (a : App) (i : Nat) (p : Path)
    (hp : p ∈ a.seen_found) : forwarded a (Msg.found i p) = [] := by
  simp [forwarded, hp]

theorem mem_seen_applyMsg_found (a : App) (i : Nat) (p : Path) :
    p ∈ (a.applyMsg (Msg.found i p)).seen_found := by
  by_cases hp : p ∈ a.seen_found
  · rw [applyMsg_found_of_mem a i p hp]
    exact hp
  · simp [App.applyMsg, App.push_recent, if_neg hp]

/-- Claim C4: applying the same Found event twice leaves the state of the
first application unchanged — the path is in seen_found afterwards, so the
second application mutates nothing and forwards nothing to the live
writer. -/
theorem found_event_idempotent (a : App) (i : Nat) (p : Path)
    (hi : i < a.roots.length) :
    (a.applyMsg (Msg.found i p)).applyMsg (Msg.found i p) = a.applyMsg (Msg.found i p) ∧
    forwarded (a.applyMsg (Msg.found i p)) (Msg.found i p) = [] :=
  ⟨applyMsg_found_of_mem _ i p (mem_seen_applyMsg_found a i p),
   forwarded_found_of_mem _ i p (mem_seen_applyMsg_found a i p)⟩

theorem lastN_length_le (n : Nat) (l : List α) : (lastN n l).length ≤ n := by
  simp only [lastN, List.length_drop]
  omega

theorem lastN_lastN (w n : Nat) (hw : w ≤ n) (l : List α) :
    lastN w (lastN n l) = lastN w l := by
  simp only [lastN, List.length_drop, List.drop_drop]
  congr 1
  omega

theorem lastN_append_one (n : Nat) (hn : 1 ≤ n) (l : List α) (p : α) :
    lastN n (l ++ [p]) = lastN (n - 1) l ++ [p] := by
  simp only [lastN, List.length_append, List.length_singleton,
    List.drop_append_eq_append_drop]
  have h2 : l.length + 1 - n - l.length = 0 := by omega
  have h3 : l.length + 1 - n = l.length - (n - 1) := by omega
  rw [h2, List.drop_zero, h3]

theorem push_recent_lastN (a : App) (p : Path)
    (h : a.recent = lastN 12 a.all_found) :
    (a.push_recent p).recent = lastN 12 (a.all_found ++ [p]) := by
  by_cases hlong : 12 ≤ a.all_found.length
  · have hL : (lastN 12 a.all_found).length = 12 := by
      simp only [lastN, List.length_drop]
      omega
    have hlen : (a.recent ++ [p]).length = 13 := by
      simp [h, hL]
    have hstep : (a.push_recent p).recent = (a.recent ++ [p]).drop 1 := by
      simp only [App.push_recent, hlen]
      rw [if_pos (by omega)]
    rw [hstep, h, lastN_append_one 12 (by omega)]
    rw [List.drop_append_eq_append_drop]
    have h1 : (1 : Nat) - (lastN 12 a.all_found).length = 0 := by omega
    rw [h1, List.drop_zero]
    congr 1
    simp only [lastN, List.drop_drop]
    congr 1
    omega
  · have hrec : a.recent = a.all_found := by
      rw [h]
      simp only [lastN]
      rw [Nat.sub_eq_zero_of_le (by omega), List.drop_zero]
    have hlen : (a.recent ++ [p]).length = a.all_found.length + 1 := by
      simp [hrec]
    have hstep : (a.push_recent p).recent = a.recent ++ [p] := by
      simp only [App.push_recent, hlen]
      rw [if_neg (by omega)]
    rw [hstep, hrec]
    simp only [lastN, List.length_append, List.length_singleton]
    rw [Nat.sub_eq_zero_of_le (by omega), List.drop_zero]

theorem recent_applyMsg (a : App) (m : Msg)
    (h : a.recent = lastN 12 a.all_found) :
    (a.applyMsg m).recent = lastN 12 (a.applyMsg m).all_found := by
  cases m with
  | scanned i => simpa [App.applyMsg] using h
  | progress i p => simpa [App.applyMsg] using h
  | done i => simpa [App.applyMsg] using h
  | found i p =>
    by_cases hp : p ∈ a.seen_found
    · simpa [App.applyMsg, hp] using h
    · have := push_recent_lastN a p h
      simp only [App.applyMsg, if_neg hp]
      simpa [App.push_recent] using this

theorem recent_runMsgs (ms : List Msg) :
    ∀ a : App, a.recent = lastN 12 a.all_found →
      (runMsgs a ms).recent = lastN 12 (runMsgs a ms).all_found := by
  induction ms with
  | nil => intro a h; simpa [runMsgs_nil] using h
  | cons m rest ih =>
    intro a h
    rw [runMsgs_cons]
    exact ih (a.applyMsg m) (recent_applyMsg a m h)

theorem windowSize_le (h : Nat) : windowSize h ≤ 12 :=
  Nat.min_le_right _ _

theorem render_recent_eq (h : Nat) (hh : 3 ≤ h) (recent : List Path) :
    render_recent_list h recent = (lastN (windowSize h) recent).reverse := by
  simp only [render_recent_list]
  rw [if_neg (by omega)]
  have hlen : ((recent.drop (recent.length - windowSize h)).reverse).length ≤ windowSize h := by
    simp only [List.length_reverse, List.length_drop]
    omega
  rw [List.take_of_length_le hlen]
  rfl

/-- Claim C5: in every reachable aggregator state, recent has at most 12
entries, equals the suffix of the last 12 confirmed matches of all_found
(push_recent evicts only the oldest), and render_recent_list presents a
window of the most recent matches newest first (the reversed tail of
all_found). -/
theorem recent_window_invariant (roots : List Path) (ms : List Msg) (h : Nat)
    (hidx : ∀ m ∈ ms, m.rootIdx < roots.length) (hh : 3 ≤ h) :
    (runMsgs (App.new roots) ms).recent.length ≤ 12 ∧
    (runMsgs (App.new roots) ms).recent =
      lastN 12 (runMsgs (App.new roots) ms).all_found ∧
    render_recent_list h (runMsgs (App.new roots) ms).recent =
      (lastN (windowSize h) (runMsgs (App.new roots) ms).all_found).reverse := by
  have hrec := recent_runMsgs ms (App.new roots) (by simp [App.new, lastN])
  refine ⟨?_, hrec, ?_⟩
  · rw [hrec]
    exact lastN_length_le 12 _
  · rw [render_recent_eq h hh, hrec, lastN_lastN _ 12 (windowSize_le h)]

theorem recent_window_invariant_witness :
    (runMsgs (App.new [['r']]) [Msg.found 0 ['p'], Msg.found 0 ['s']]).recent.length ≤ 12 ∧
    (runMsgs (App.new [['r']]) [Msg.found 0 ['p'], Msg.found 0 ['s']]).recent =
      lastN 12 (runMsgs (App.new [['r']]) [Msg.found 0 ['p'], Msg.found 0 ['s']]).all_found ∧
    render_recent_list 5 (runMsgs (App.new [['r']]) [Msg.found 0 ['p'], Msg.found 0 ['s']]).recent =
      (lastN (windowSize 5)
        (runMsgs (App.new [['r']]) [Msg.found 0 ['p'], Msg.found 0 ['s']]).all_found).reverse :=
  recent_window_invariant [['r']] [Msg.found 0 ['p'], Msg.found 0 ['s']] 5
    (by decide) (by norm_num)

theorem found_event_idempotent_witness :
    ((App.new [['r']]).applyMsg (Msg.found 0 ['p'])).applyMsg (Msg.found 0 ['p']) =
      (App.new [['r']]).applyMsg (Msg.found 0 ['p']) ∧
    forwarded ((App.new [['r']]).applyMsg (Msg.found 0 ['p'])) (Msg.found 0 ['p']) = [] :=
  found_event_idempotent (App.new [['r']]) 0 ['p'] (by decide)

theorem canonical_dir_eq_getD (e : FsEntry) : canonical_dir e = e.canon.getD e.path := by
  cases h : e.canon <;> simp [canonical_dir, h]

theorem foundPaths_append (xs ys : List Msg) :
    foundPaths (xs ++ ys) = foundPaths xs ++ foundPaths ys := by
  induction xs with
  | nil => rfl
  | cons m rest ih => cases m <;> simp [foundPaths, ih]

theorem foundPaths_scanMsgsAux (i : Nat) (items : List WalkItem) :
    foundPaths (scanMsgsAux i items) = claimedMatches items := by
  induction items with
  | nil => rfl
  | cons it rest ih =>
    cases it with
    | ok e =>
      simp only [scanMsgsAux, foundPaths_append, claimedMatches, ih]
      by_cases hg : is_git_dir e <;> by_cases hr : e.report <;>
        simp [entryMsgs, foundPaths_append, foundPaths, hg, hr, canonical_dir_eq_getD]
    | err =>
      simp only [scanMsgsAux, entryMsgs]
      simp [foundPaths, claimedMatches, ih]

/-- Claim C8: the Found events scan_root emits are exactly one per visited
Ok entry that is a directory named .git ignoring ASCII case, in traversal
order, carrying the canonicalized path when canonicalization succeeded and
the raw entry path otherwise; a canonicalization failure never drops the
match. -/
theorem scanner_emits_canonical_found (i : Nat) (root : Path)
    (items : List WalkItem) :
    foundPaths (scan_root i root items) = claimedMatches items := by
  have hhead : foundPaths (scan_root i root items) = foundPaths (scanMsgsAux i items) := rfl
  rw [hhead, foundPaths_scanMsgsAux]

theorem eq_of_mem_ite_singleton {α : Type _} {c : Prop} [Decidable c] {x m : α}
    (h : m ∈ (if c then [x] else ([] : List α))) : m = x := by
  split at h
  · simpa using h
  · simp at h

theorem rootIdx_entryMsgs (i : Nat) (it : WalkItem) (m : Msg)
    (hm : m ∈ entryMsgs i it) : m.rootIdx = i := by
  cases it with
  | ok e =>
    simp only [entryMsgs, List.mem_append] at hm
    rcases hm with h1 | h2
    · rcases h1 with h3 | h4
      · rw [List.mem_singleton] at h3
        subst h3
        rfl
      · rw [eq_of_mem_ite_singleton h4]
        rfl
    · rw [eq_of_mem_ite_singleton h2]
      rfl
  | err =>
    simp only [entryMsgs, List.mem_singleton] at hm
    subst hm
    rfl

theorem rootIdx_scanMsgsAux (i : Nat) (items : List WalkItem) (m : Msg)
    (hm : m ∈ scanMsgsAux i items) : m.rootIdx = i := by
  induction items with
  | nil =>
    simp only [scanMsgsAux, List.mem_singleton] at hm
    subst hm
    rfl
  | cons it rest ih =>
    simp only [scanMsgsAux, List.mem_append] at hm
    rcases hm with h1 | h2
    · exact rootIdx_entryMsgs i it m h1
    · exact ih h2

theorem rootIdx_scan_root (i : Nat) (root : Path) (items : List WalkItem)
    (m : Msg) (hm : m ∈ scan_root i root items) : m.rootIdx = i := by
  simp only [scan_root, List.mem_cons] at hm
  rcases hm with rfl | h2
  · rfl
  · exact rootIdx_scanMsgsAux i items m h2

/-- Claim C10: every message produced by a scanner spawned over the roots
vector carries a root index obtained by enumerating that same vector, so
it is strictly below the length of the App roots list built from the same
vector and the indexed accesses of the drain loop are in bounds. -/
theorem scanner_indices_in_bounds (plans : List RootPlan) (ms : List Msg)
    (m : Msg) (h1 : ms ∈ spawn_scanners plans) (h2 : m ∈ ms) :
    m.rootIdx < (App.new (plans.map RootPlan.path)).roots.length := by
  have happ : (App.new (plans.map RootPlan.path)).roots.length = plans.length := by
    simp [App.new]
  rw [happ]
  simp only [spawn_scanners, List.mem_map] at h1
  obtain ⟨pr, hpr, rfl⟩ := h1
  rw [rootIdx_scan_root pr.1 pr.2.path pr.2.items m h2]
  exact List.fst_lt_of_mem_enum hpr

theorem scanner_indices_in_bounds_witness :
    (Msg.done 0).rootIdx <
      (App.new ([(⟨['a'], []⟩ : RootPlan)].map RootPlan.path)).roots.length :=
  scanner_indices_in_bounds [⟨['a'], []⟩] (scan_root 0 ['a'] []) (Msg.done 0)
    (by decide) (by decide)

theorem jsonRun_nil (st : JState) (acc : List (List Char)) :
    jsonRun st acc [] = some (st, acc) := rfl

theorem jsonRun_cons_of_step {st : JState} {acc : List (List Char)} {c : Char}
    {st2 : JState} {acc2 : List (List Char)} (rest : List Char)
    (h : jsonStep st acc c = some (st2, acc2)) :
    jsonRun st acc (c :: rest) = jsonRun st2 acc2 rest := by
  simp [jsonRun, h]

theorem jsonStep_start_open (acc : List (List Char)) :
    jsonStep .start acc '[' = some (.afterOpen, acc) := rfl

theorem jsonStep_afterOpen_nl (acc : List (List Char)) :
    jsonStep .afterOpen acc nlC = some (.afterOpen, acc) := rfl

theorem jsonStep_afterOpen_sp (acc : List (List Char)) :
    jsonStep .afterOpen acc spC = some (.afterOpen, acc) := rfl

theorem jsonStep_afterOpen_q (acc : List (List Char)) :
    jsonStep .afterOpen acc qC = some (.inStr [], acc) := rfl

theorem jsonStep_inStr_q (cur : List Char) (acc : List (List Char)) :
    jsonStep (.inStr cur) acc qC = some (.afterStr, cur.reverse :: acc) := rfl

theorem jsonStep_inStr_bs (cur : List Char) (acc : List (List Char)) :
    jsonStep (.inStr cur) acc bsC = some (.afterBS cur, acc) := rfl

theorem jsonStep_afterBS_bs (cur : List Char) (acc : List (List Char)) :
    jsonStep (.afterBS cur) acc bsC = some (.inStr (bsC :: bsC :: cur), acc) := rfl

theorem jsonStep_afterBS_q (cur : List Char) (acc : List (List Char)) :
    jsonStep (.afterBS cur) acc qC = some (.inStr (qC :: bsC :: cur), acc) := rfl

theorem jsonStep_inStr_other (cur : List Char) (acc : List (List Char)) (c : Char)
    (h1 : ¬c = qC) (h2 : ¬c = bsC) (h3 : isCtl c = false) :
    jsonStep (.inStr cur) acc c = some (.inStr (c :: cur), acc) := by
  simp [jsonStep, h1, h2, h3]

theorem jsonStep_afterStr_comma (acc : List (List Char)) :
    jsonStep .afterStr acc ',' = some (.afterComma, acc) := rfl

theorem jsonStep_afterStr_nl (acc : List (List Char)) :
    jsonStep .afterStr acc nlC = some (.afterStr, acc) := rfl

theorem jsonStep_afterStr_close (acc : List (List Char)) :
    jsonStep .afterStr acc ']' = some (.closed, acc) := rfl

theorem jsonStep_afterComma_nl (acc : List (List Char)) :
    jsonStep .afterComma acc nlC = some (.afterComma, acc) := rfl

theorem jsonStep_afterComma_sp (acc : List (List Char)) :
    jsonStep .afterComma acc spC = some (.afterComma, acc) := rfl

theorem jsonStep_afterComma_q (acc : List (List Char)) :
    jsonStep .afterComma acc qC = some (.inStr [], acc) := rfl

theorem jsonStep_closed_nl (acc : List (List Char)) :
    jsonStep .closed acc nlC = some (.closed, acc) := rfl

theorem jsonRun_specEscape (p : Path) (hp : ControlFree p) :
    ∀ (cur : List Char) (acc : List (List Char)) (rest : List Char),
      jsonRun (.inStr cur) acc (specEscape p ++ rest) =
        jsonRun (.inStr ((specEscape p).reverse ++ cur)) acc rest := by
  induction p with
  | nil => intro cur acc rest; simp [specEscape]
  | cons c cs ih =>
    intro cur acc rest
    have hc : isCtl c = false := hp c (List.mem_cons_self c cs)
    have hcs : ControlFree cs := fun x hx => hp x (List.mem_cons_of_mem c hx)
    by_cases hb : c = bsC
    · subst hb
      have hshape : specEscape (bsC :: cs) ++ rest =
          bsC :: bsC :: (specEscape cs ++ rest) := by
        simp [specEscape, specEscapeChar]
      rw [hshape]
      rw [jsonRun_cons_of_step _ (jsonStep_inStr_bs cur acc)]
      rw [jsonRun_cons_of_step _ (jsonStep_afterBS_bs cur acc)]
      rw [ih hcs (bsC :: bsC :: cur) acc rest]
      simp [specEscape, specEscapeChar, List.reverse_append, List.append_assoc]
    · by_cases hq : c = qC
      · subst hq
        have hbq : ¬qC = bsC := by decide
        have hshape : specEscape (qC :: cs) ++ rest =
            bsC :: qC :: (specEscape cs ++ rest) := by
          simp [specEscape, specEscapeChar, hbq]
        rw [hshape]
        rw [jsonRun_cons_of_step _ (jsonStep_inStr_bs cur acc)]
        rw [jsonRun_cons_of_step _ (jsonStep_afterBS_q cur acc)]
        rw [ih hcs (qC :: bsC :: cur) acc rest]
        simp [specEscape, specEscapeChar, hbq, List.reverse_append, List.append_assoc]
      · have hshape : specEscape (c :: cs) ++ rest = c :: (specEscape cs ++ rest) := by
          simp [specEscape, specEscapeChar, hb, hq]
        rw [hshape]
        rw [jsonRun_cons_of_step _ (jsonStep_inStr_other cur acc c hq hb hc)]
        rw [ih hcs (c :: cur) acc rest]
        simp [specEscape, specEscapeChar, hb, hq, List.reverse_append, List.append_assoc]

theorem jsonRun_write_items (ps : List Path) (hp : ∀ p ∈ ps, ControlFree p) :
    ∀ (acc : List (List Char)) (rest : List Char),
      jsonRun .afterStr acc (write_json_items false ps ++ rest) =
        jsonRun .afterStr ((ps.map specEscape).reverse ++ acc) rest := by
  induction ps with
  | nil => intro acc rest; simp [write_json_items]
  | cons p ps2 ih =>
    intro acc rest
    have hp1 : ControlFree p := hp p (List.mem_cons_self p ps2)
    have hp2 : ∀ x ∈ ps2, ControlFree x := fun x hx => hp x (List.mem_cons_of_mem p hx)
    have hshape : write_json_items false (p :: ps2) ++ rest =
        ',' :: qC :: (specEscape p ++ (qC :: (write_json_items false ps2 ++ rest))) := by
      simp [write_json_items, escape_json_path_eq, List.append_assoc]
    rw [hshape]
    rw [jsonRun_cons_of_step _ (jsonStep_afterStr_comma acc)]
    rw [jsonRun_cons_of_step _ (jsonStep_afterComma_q acc)]
    rw [jsonRun_specEscape p hp1 [] acc _]
    rw [jsonRun_cons_of_step _ (jsonStep_inStr_q _ acc)]
    rw [ih hp2 _ rest]
    simp [List.reverse_append, List.append_assoc]

theorem jsonRun_live_records (ps : List Path) (hp : ∀ p ∈ ps, ControlFree p) :
    ∀ (acc : List (List Char)) (rest : List Char),
      jsonRun .afterStr acc (live_records_bytes false ps ++ rest) =
        jsonRun .afterStr ((ps.map specEscape).reverse ++ acc) rest := by
  induction ps with
  | nil => intro acc rest; simp [live_records_bytes]
  | cons p ps2 ih =>
    intro acc rest
    have hp1 : ControlFree p := hp p (List.mem_cons_self p ps2)
    have hp2 : ∀ x ∈ ps2, ControlFree x := fun x hx => hp x (List.mem_cons_of_mem p hx)
    have hshape : live_records_bytes false (p :: ps2) ++ rest =
        ',' :: nlC :: spC :: spC :: qC ::
          (specEscape p ++ (qC :: (live_records_bytes false ps2 ++ rest))) := by
      simp [live_records_bytes, live_record_bytes, escape_json_path_eq, List.append_assoc]
    rw [hshape]
    rw [jsonRun_cons_of_step _ (jsonStep_afterStr_comma acc)]
    rw [jsonRun_cons_of_step _ (jsonStep_afterComma_nl acc)]
    rw [jsonRun_cons_of_step _ (jsonStep_afterComma_sp acc)]
    rw [jsonRun_cons_of_step _ (jsonStep_afterComma_sp acc)]
    rw [jsonRun_cons_of_step _ (jsonStep_afterComma_q acc)]
    rw [jsonRun_specEscape p hp1 [] acc _]
    rw [jsonRun_cons_of_step _ (jsonStep_inStr_q _ acc)]
    rw [ih hp2 _ rest]
    simp [List.reverse_append, List.append_assoc]

theorem parse_write_json_eq (ps : List Path) (hp : ∀ p ∈ ps, ControlFree p) :
    parseJsonStrings (write_json ps) = some (ps.map escape_json_path) := by
  cases ps with
  | nil => rfl
  | cons p ps2 =>
    have hp1 : ControlFree p := hp p (List.mem_cons_self p ps2)
    have hp2 : ∀ x ∈ ps2, ControlFree x := fun x hx => hp x (List.mem_cons_of_mem p hx)
    have hshape : write_json (p :: ps2) =
        '[' :: qC :: (specEscape p ++ (qC :: (write_json_items false ps2 ++ [']', nlC]))) := by
      simp [write_json, write_json_items, escape_json_path_eq, List.append_assoc]
    rw [parseJsonStrings, hshape]
    rw [jsonRun_cons_of_step _ (jsonStep_start_open [])]
    rw [jsonRun_cons_of_step _ (jsonStep_afterOpen_q [])]
    rw [jsonRun_specEscape p hp1 [] [] _]
    rw [jsonRun_cons_of_step _ (jsonStep_inStr_q _ [])]
    rw [jsonRun_write_items ps2 hp2 _ _]
    rw [jsonRun_cons_of_step _ (jsonStep_afterStr_close _)]
    rw [jsonRun_cons_of_step _ (jsonStep_closed_nl _)]
    rw [jsonRun_nil]
    simp [escape_json_path_eq, List.reverse_append]

theorem parse_live_output_eq (ps : List Path) (hp : ∀ p ∈ ps, ControlFree p) :
    parseJsonStrings (live_output_bytes ps) = some (ps.map escape_json_path) := by
  cases ps with
  | nil => rfl
  | cons p ps2 =>
    have hp1 : ControlFree p := hp p (List.mem_cons_self p ps2)
    have hp2 : ∀ x ∈ ps2, ControlFree x := fun x hx => hp x (List.mem_cons_of_mem p hx)
    have hshape : live_output_bytes (p :: ps2) =
        '[' :: nlC :: spC :: spC :: qC ::
          (specEscape p ++ (qC :: (live_records_bytes false ps2 ++ [nlC, ']', nlC]))) := by
      simp [live_output_bytes, live_records_bytes, live_record_bytes, live_finalize_bytes,
        escape_json_path_eq, List.append_assoc]
    rw [parseJsonStrings, hshape]
    rw [jsonRun_cons_of_step _ (jsonStep_start_open [])]
    rw [jsonRun_cons_of_step _ (jsonStep_afterOpen_nl [])]
    rw [jsonRun_cons_of_step _ (jsonStep_afterOpen_sp [])]
    rw [jsonRun_cons_of_step _ (jsonStep_afterOpen_sp [])]
    rw [jsonRun_cons_of_step _ (jsonStep_afterOpen_q [])]
    rw [jsonRun_specEscape p hp1 [] [] _]
    rw [jsonRun_cons_of_step _ (jsonStep_inStr_q _ [])]
    rw [jsonRun_live_records ps2 hp2 _ _]
    rw [jsonRun_cons_of_step _ (jsonStep_afterStr_nl _)]
    rw [jsonRun_cons_of_step _ (jsonStep_afterStr_close _)]
    rw [jsonRun_cons_of_step _ (jsonStep_closed_nl _)]
    rw [jsonRun_nil]
    simp [escape_json_path_eq, List.reverse_append]

/-- Claim C7: the post-exit result emitter's write_json and the JSON live
writer's record-then-finalize byte streams both parse as one JSON array
holding the identical sequence of escaped path strings, in the same order
(for paths free of control characters, the regime in which the partial
escaping of section 4.4 yields parseable JSON at all). -/
theorem write_json_live_output_agree (ps : List Path)
    (hp : ∀ p ∈ ps, ControlFree p) :
    parseJsonStrings (write_json ps) = some (ps.map escape_json_path) ∧
    parseJsonStrings (live_output_bytes ps) = some (ps.map escape_json_path) :=
  ⟨parse_write_json_eq ps hp, parse_live_output_eq ps hp⟩

theorem write_json_live_output_agree_witness :
    parseJsonStrings (write_json [['a'], [bsC]]) =
      some ([['a'], [bsC]].map escape_json_path) ∧
    parseJsonStrings (live_output_bytes [['a'], [bsC]]) =
      some ([['a'], [bsC]].map escape_json_path) :=
  write_json_live_output_agree [['a'], [bsC]] (by decide)

/-- Claim C3 as amended: provided every recorded path is free of control
characters (below U+0020) — the one JSON escape class escape_json_path does
not handle — the bytes of LiveOutput::new, any prefix of record calls, and
the finalize bytes for the resulting first-flag state parse as a
syntactically valid JSON array. -/
theorem live_output_valid_json (ps : List Path) (hp : ∀ p ∈ ps, ControlFree p) :
    (parseJsonStrings (live_output_bytes ps)).isSome = true := by
  rw [parse_live_output_eq ps hp]
  rfl

theorem live_output_valid_json_witness :
    (parseJsonStrings (live_output_bytes [['a'], ['b', 'c']])).isSome = true :=
  live_output_valid_json [['a'], ['b', 'c']] (by decide)

/-- Claim C3 counterexample: recording the one-character path consisting of
a bare newline produces live output that is not a valid JSON array — the
unescaped control character is forbidden inside a JSON string. -/
theorem live_output_invalid_on_control :
    parseJsonStrings (live_output_bytes [[nlC]]) = none := by decide

/-- Claim C6 counterexample: with no matches, neither write_json nor the
JSON live writer emits exactly the two characters bracket-bracket; both
append a trailing newline. -/
theorem empty_output_not_two_bytes :
    ¬(write_json [] = ['[', ']'] ∧ live_output_bytes [] = ['[', ']']) := by
  decide

/-- Claim C6 as amended: with no matches, both the post-exit write_json
path and the recorded-nothing-then-finalized JSON live writer emit exactly
the three bytes: opening bracket, closing bracket, newline. -/
theorem empty_output_bracket_newline :
    write_json [] = ['[', ']', nlC] ∧ live_output_bytes [] = ['[', ']', nlC] := by
  decide

/-- Claim C2 evaluated at its failing input: with a live writer active and
terminal.draw failing in the first loop iteration, main exits through the
question-mark propagation at main.rs:193 and LiveOutput::finalize runs
zero times, not once — the error exit path never reaches the finalize call
at main.rs:225-226. -/
theorem finalize_skipped_on_draw_error :
    mainRun true [['r']] [⟨[], false, true, false, none⟩] =
      some (0, App.new [['r']]) := by
  rfl

end FindGitDirs
